import Mathlib

/-
Verification development for the `mega` numeric library: a shallow embedding of its
number-theoretic evaluators (SigmaZ, EulerPhi, JordanTotient, Gamma, Chebyshev) and its
dense typed Tensor container, together with theorems settling the specified properties.

The repository ships only the package wiring and the test suite; the Cython sources of
`mega.op` and `mega.utils` are not present.  Every operational definition below is
therefore modelled from the specification, with the test suite taken as the authority
on pinned values wherever the two disagree.
-/

open scoped Classical

/-- Modelled from the spec: the missing `mega` sources signal the two error kinds with
Python's built-in `ValueError` (InvalidArgument) and `IndexError` (IndexOutOfRange),
the exception types the test suite pins. -/
inductive PyError where
  | valueError
  | indexError
  deriving DecidableEq

deriving instance DecidableEq for Except

/-- Modelled from the repository's tests (`tensor_test.py`, missing `mega.op.tensor`
source): the recognized element type tags. -/
def validDtypes : List String := ["int", "long", "float", "double"]

/-- Modelled from the spec (missing `mega.op.arithmethic` source): divisors of `n` up
to `floor (sqrt n)`, found by trial division with loop condition `i * i <= n`. -/
def smallDivisors (n : ℕ) : List ℕ :=
  (List.range' 1 n).filter (fun i => decide (i * i ≤ n ∧ n % i = 0))

/-- Modelled from the spec: each small divisor `i` is paired with its cofactor `n / i`,
deduplicating when `i == n / i`. -/
def largeDivisors (n : ℕ) : List ℕ :=
  ((smallDivisors n).filter (fun i => i != n / i)).map (fun i => n / i)

/-- The full divisor enumeration used by `SigmaZ.compute`. -/
def divisorList (n : ℕ) : List ℕ := smallDivisors n ++ largeDivisors n

theorem mem_smallDivisors {n i : ℕ} :
    i ∈ smallDivisors n ↔ (1 ≤ i ∧ i ≤ Nat.sqrt n ∧ i ∣ n) := by
  simp only [smallDivisors, List.mem_filter, List.mem_range'_1, decide_eq_true_eq,
    Nat.dvd_iff_mod_eq_zero, Nat.le_sqrt]
  constructor
  · rintro ⟨⟨h1, _⟩, h3, h4⟩
    exact ⟨h1, h3, h4⟩
  · rintro ⟨h1, h3, h4⟩
    have : i ≤ i * i := Nat.le_mul_of_pos_left i (by omega)
    exact ⟨⟨h1, by omega⟩, h3, h4⟩

theorem mem_largeDivisors {n d : ℕ} :
    d ∈ largeDivisors n ↔ ∃ i, 1 ≤ i ∧ i ≤ Nat.sqrt n ∧ i ∣ n ∧ i ≠ n / i ∧ d = n / i := by
  simp only [largeDivisors, List.mem_map, List.mem_filter, mem_smallDivisors, bne_iff_ne,
    ne_eq]
  constructor
  · rintro ⟨i, ⟨⟨h1, h2, h3⟩, h4⟩, h5⟩
    exact ⟨i, h1, h2, h3, h4, h5.symm⟩
  · rintro ⟨i, h1, h2, h3, h4, h5⟩
    exact ⟨i, ⟨⟨h1, h2, h3⟩, h4⟩, h5.symm⟩

theorem smallDivisors_nodup (n : ℕ) : (smallDivisors n).Nodup :=
  (List.nodup_range' _ _).filter _

theorem largeDivisors_nodup (n : ℕ) (hn : 0 < n) : (largeDivisors n).Nodup := by
  refine List.Nodup.map_on ?_ ((smallDivisors_nodup n).filter _)
  intro x hx y hy hxy
  rw [List.mem_filter, mem_smallDivisors] at hx hy
  obtain ⟨⟨hx1, _, hx3⟩, _⟩ := hx
  obtain ⟨⟨hy1, _, hy3⟩, _⟩ := hy
  have ex : n / (n / x) = x := Nat.div_div_self hx3 (by omega)
  have ey : n / (n / y) = y := Nat.div_div_self hy3 (by omega)
  rw [← ex, ← ey, hxy]

theorem largeDivisor_gt_sqrt {n d : ℕ} (hd : d ∈ largeDivisors n) :
    Nat.sqrt n < d := by
  rw [mem_largeDivisors] at hd
  obtain ⟨i, h1, h2, h3, h4, h5⟩ := hd
  have hn : 0 < n := Nat.sqrt_pos.mp (by omega)
  by_contra hle
  push_neg at hle
  have hmul : i * (n / i) = n := Nat.mul_div_cancel' h3
  subst h5
  have hs : Nat.sqrt n * Nat.sqrt n ≤ n := Nat.sqrt_le n
  have h6 : n ≤ Nat.sqrt n * Nat.sqrt n := by
    calc n = i * (n / i) := hmul.symm
    _ ≤ Nat.sqrt n * Nat.sqrt n := Nat.mul_le_mul h2 hle
  have hipos : 0 < n / i := by
    rcases Nat.eq_zero_or_pos (n / i) with h | h
    · rw [h, Nat.mul_zero] at hmul; omega
    · exact h
  have hi : i = Nat.sqrt n := by nlinarith
  have hni : n / i = Nat.sqrt n := by nlinarith
  omega

theorem divisorList_nodup (n : ℕ) (hn : 0 < n) : (divisorList n).Nodup := by
  rw [divisorList, List.nodup_append]
  refine ⟨smallDivisors_nodup n, largeDivisors_nodup n hn, ?_⟩
  intro x hx hx'
  have h1 := (mem_smallDivisors.mp hx).2.1
  have h2 := largeDivisor_gt_sqrt hx'
  omega

theorem mem_divisorList {n d : ℕ} (hn : 0 < n) : d ∈ divisorList n ↔ d ∣ n := by
  rw [divisorList, List.mem_append, mem_smallDivisors, mem_largeDivisors]
  constructor
  · rintro (⟨_, _, h⟩ | ⟨i, _, _, h3, _, h5⟩)
    · exact h
    · rw [h5]; exact Nat.div_dvd_of_dvd h3
  · intro hd
    have hd1 : 1 ≤ d := Nat.one_le_iff_ne_zero.mpr (by
      rintro rfl
      exact absurd (Nat.eq_zero_of_zero_dvd hd) (by omega))
    by_cases hle : d ≤ Nat.sqrt n
    · exact Or.inl ⟨hd1, hle, hd⟩
    · right
      push_neg at hle
      have hprod : n / d * d = n := Nat.div_mul_cancel hd
      have hnd_le : n / d ≤ Nat.sqrt n := by
        by_contra hgt
        push_neg at hgt
        have hm : (Nat.sqrt n + 1) * (Nat.sqrt n + 1) ≤ n / d * d :=
          Nat.mul_le_mul hgt hle
        have hlt := Nat.lt_succ_sqrt n
        simp only [Nat.succ_eq_add_one] at hlt
        omega
      refine ⟨n / d, ?_, hnd_le, Nat.div_dvd_of_dvd hd, ?_, ?_⟩
      · exact Nat.one_le_div_iff (by omega) |>.mpr (Nat.le_of_dvd hn hd)
      · have hrec : n / (n / d) = d := Nat.div_div_self hd (by omega)
        rw [hrec]
        omega
      · exact (Nat.div_div_self hd (by omega)).symm

theorem toFinset_divisorList (n : ℕ) (hn : 0 < n) :
    (divisorList n).toFinset = n.divisors := by
  ext d
  rw [List.mem_toFinset, mem_divisorList hn, Nat.mem_divisors]
  exact ⟨fun h => ⟨h, by omega⟩, fun h => h.1⟩

/-- The divisor enumeration of the source sums exactly over `n.divisors`. -/
theorem sum_divisorList {M : Type} [AddCommMonoid M] (n : ℕ) (hn : 0 < n) (f : ℕ → M) :
    ((divisorList n).map f).sum = ∑ d ∈ n.divisors, f d := by
  rw [← toFinset_divisorList n hn, List.sum_toFinset f (divisorList_nodup n hn)]

/-- Modelled from the spec (NumberTheoryKernel, missing `mega.op` sources): trial
division with divisor `k + 2`, dividing out each found factor repeatedly before
advancing the trial divisor; the loop stops once the divisor exceeds `floor (sqrt n)`
and a remaining cofactor greater than 1 is counted once. -/
def trialDivide (n k : ℕ) : List ℕ :=
  if n ≤ 1 then []
  else if n < (k + 2) * (k + 2) then [n]
  else if n % (k + 2) = 0 then (k + 2) :: trialDivide (n / (k + 2)) k
  else trialDivide n (k + 1)
termination_by (n, n - k)
decreasing_by
  · exact Prod.Lex.left _ _ (Nat.div_lt_self (by omega) (by omega))
  · rename_i h1 h2 _
    have hb : (k + 2) * (k + 2) ≤ n := Nat.le_of_not_lt h2
    have hk : k + 2 ≤ (k + 2) * (k + 2) := Nat.le_mul_of_pos_left _ (by omega)
    exact Prod.Lex.right _ (by omega)

/-- The kernel's factorization of `n`, trial divisors starting at 2. -/
def primeFactors (n : ℕ) : List ℕ := trialDivide n 0

theorem trialDivide_prod (n k : ℕ) (hn : 1 ≤ n) : (trialDivide n k).prod = n := by
  induction n, k using trialDivide.induct with
  | case1 n k h => rw [trialDivide]; simp only [if_pos h]; simp; omega
  | case2 n k h1 h2 => rw [trialDivide]; simp [h1, h2]
  | case3 n k h1 h2 h3 ih =>
      rw [trialDivide]
      simp only [if_neg h1, if_neg h2, if_pos h3, List.prod_cons]
      have h2' : (k + 2) * (k + 2) ≤ n := Nat.le_of_not_lt h2
      have hrec : 1 ≤ n / (k + 2) :=
        Nat.one_le_div_iff (by omega) |>.mpr
          (le_trans (Nat.le_mul_of_pos_left _ (by omega)) h2')
      rw [ih hrec]
      exact Nat.mul_div_cancel' (Nat.dvd_of_mod_eq_zero h3)
  | case4 n k h1 h2 h3 ih =>
      rw [trialDivide]
      simp only [if_neg h1, if_neg h2, if_neg h3]
      exact ih hn

theorem trialDivide_prime (n k : ℕ)
    (hinv : ∀ m, 2 ≤ m → m < k + 2 → ¬ m ∣ n) :
    ∀ p ∈ trialDivide n k, p.Prime := by
  induction n, k using trialDivide.induct with
  | case1 n k h =>
      rw [trialDivide]; simp [h]
  | case2 n k h1 h2 =>
      rw [trialDivide]
      simp only [if_neg h1, if_pos h2, List.mem_singleton]
      rintro p rfl
      rw [Nat.prime_def_le_sqrt]
      refine ⟨by omega, fun m hm hms => ?_⟩
      have hsq : Nat.sqrt p < k + 2 := Nat.sqrt_lt.mpr h2
      exact hinv m hm (by omega)
  | case3 n k h1 h2 h3 ih =>
      rw [trialDivide]
      simp only [if_neg h1, if_neg h2, if_pos h3, List.mem_cons]
      have hdvd : (k + 2) ∣ n := Nat.dvd_of_mod_eq_zero h3
      rintro p (rfl | hp)
      · rw [Nat.prime_def_lt]
        refine ⟨by omega, fun m hm hmd => ?_⟩
        by_contra hm1
        have hm2 : 2 ≤ m := by
          rcases Nat.eq_zero_or_pos m with h | h
          · subst h; exact absurd (Nat.eq_zero_of_zero_dvd hmd) (by omega)
          · omega
        exact hinv m hm2 (by omega) (hmd.trans hdvd)
      · refine ih (fun m hm2 hmk hmd => ?_) p hp
        exact hinv m hm2 hmk (hmd.trans (Nat.div_dvd_of_dvd hdvd))
  | case4 n k h1 h2 h3 ih =>
      rw [trialDivide]
      simp only [if_neg h1, if_neg h2, if_neg h3]
      refine ih (fun m hm2 hmk hmd => ?_)
      rcases Nat.lt_or_ge m (k + 2) with h | h
      · exact hinv m hm2 h hmd
      · have : m = k + 2 := by omega
        subst this
        exact h3 (Nat.mod_eq_zero_of_dvd hmd)

theorem primeFactors_prime (n : ℕ) : ∀ p ∈ primeFactors n, p.Prime :=
  trialDivide_prime n 0 (fun m hm2 hmk => by omega)

theorem primeFactors_prod (n : ℕ) (hn : 1 ≤ n) : (primeFactors n).prod = n :=
  trialDivide_prod n 0 hn

theorem primeFactors_perm (n : ℕ) (hn : 1 ≤ n) :
    List.Perm (primeFactors n) n.primeFactorsList :=
  Nat.primeFactorsList_unique (primeFactors_prod n hn) (primeFactors_prime n)

theorem primeFactors_of_prime {p : ℕ} (hp : p.Prime) : primeFactors p = [p] := by
  have := primeFactors_perm p hp.one_lt.le
  rw [Nat.primeFactorsList_prime hp] at this
  exact List.perm_singleton.mp this

theorem primeFactors_of_prime_pow {p k : ℕ} (hp : p.Prime) :
    primeFactors (p ^ k) = List.replicate k p := by
  have hpos : 1 ≤ p ^ k := Nat.one_le_pow _ _ hp.pos
  have := primeFactors_perm (p ^ k) hpos
  rw [hp.primeFactorsList_pow] at this
  exact List.perm_replicate.mp this

theorem dedup_replicate_of_pos {p k : ℕ} (hk : 1 ≤ k) :
    (List.replicate k p).dedup = [p] := by
  induction k with
  | zero => omega
  | succ k ih =>
      rcases Nat.eq_zero_or_pos k with rfl | hkpos
      · simp
      · rw [List.replicate_succ, List.dedup_cons_of_mem (by
          simp [List.mem_replicate]; omega)]
        exact ih hkpos

/-- Modelled from the spec: the tagged numeric result of `SigmaZ.compute` (exact
integer for non-negative integer exponents, real for other real exponents, complex
exactly when the exponent has a non-zero imaginary part). -/
inductive SigmaResult where
  | intVal (v : ℤ)
  | realVal (v : ℝ)
  | complexVal (v : ℂ)

/-- Discriminator for the complex branch of `SigmaResult`. -/
def SigmaResult.isComplexVal : SigmaResult → Bool
  | .complexVal _ => true
  | _ => false

/-- Modelled from the spec (missing `mega.op.arithmethic` source): `SigmaZ(n, z)`
sums `d ** z` over the divisors of `n` enumerated by trial division, with complex
exponentiation `d^z = exp(z * ln d)` exactly when `z` has a non-zero imaginary part,
exact integer arithmetic for non-negative integer `z`, and real powers otherwise. -/
noncomputable def SigmaZ.compute (n : ℕ) (z : ℂ) : SigmaResult :=
  if z.im ≠ 0 then
    .complexVal (((divisorList n).map (fun (d : ℕ) => Complex.exp (z * Real.log d))).sum)
  else if 0 ≤ z.re ∧ (⌊z.re⌋₊ : ℝ) = z.re then
    .intVal (((divisorList n).map (fun (d : ℕ) => (d : ℤ) ^ ⌊z.re⌋₊)).sum)
  else
    .realVal (((divisorList n).map (fun (d : ℕ) => (d : ℝ) ^ z.re)).sum)

theorem sigmaZ_int_eval (n m : ℕ) :
    SigmaZ.compute n ((m : ℕ) : ℂ) =
      .intVal (((divisorList n).map (fun (d : ℕ) => (d : ℤ) ^ m)).sum) := by
  rw [SigmaZ.compute]
  rw [if_neg (by simp), if_pos (by simp)]
  simp

theorem sigmaZ_complex_eval (n : ℕ) (z : ℂ) (hz : z.im ≠ 0) :
    SigmaZ.compute n z =
      .complexVal (((divisorList n).map (fun (d : ℕ) => Complex.exp (z * Real.log d))).sum) := by
  rw [SigmaZ.compute, if_pos hz]

theorem sigmaZ_isComplex_iff (n : ℕ) (z : ℂ) :
    (SigmaZ.compute n z).isComplexVal = true ↔ z.im ≠ 0 := by
  rw [SigmaZ.compute]
  split_ifs with h1 h2
  · simpa [SigmaResult.isComplexVal]
  · simp [SigmaResult.isComplexVal, h1]
  · simp [SigmaResult.isComplexVal, h1]

/-- For a divisor `d ≥ 1`, `exp (z * ln d)` is exactly the complex power `d ^ z`. -/
theorem exp_log_eq_cpow {d : ℕ} (hd : 1 ≤ d) (z : ℂ) :
    Complex.exp (z * Real.log d) = (d : ℂ) ^ z := by
  rw [Complex.cpow_def_of_ne_zero (by exact_mod_cast Nat.one_le_iff_ne_zero.mp hd)]
  rw [mul_comm]
  congr 1
  congr 1
  rw [← Complex.ofReal_natCast, Complex.ofReal_log (by positivity)]

/-- Modelled from the spec (missing `mega.op.arithmethic` source): Euler's totient:
`n = 1` returns 1, otherwise the distinct prime factors are folded as
`n / p_1 * (p_1 - 1) / p_2 * (p_2 - 1) ...`, never leaving integer arithmetic. -/
def EulerPhi.compute (n : ℕ) : ℕ :=
  if n = 1 then 1
  else ((primeFactors n).dedup).foldl (fun acc p => acc / p * (p - 1)) n

/-- Modelled from the spec: EulerPhi construction rejects non-positive `n` with
`InvalidArgument` (Python `ValueError`). -/
def EulerPhi.construct (n : ℤ) : Except PyError ℕ :=
  if n ≤ 0 then .error .valueError else .ok (EulerPhi.compute n.toNat)

theorem eulerPhi_prime_eq {p : ℕ} (hp : p.Prime) : EulerPhi.compute p = p - 1 := by
  rw [EulerPhi.compute, if_neg hp.one_lt.ne', primeFactors_of_prime hp,
    List.dedup_cons_of_not_mem (List.not_mem_nil p), List.dedup_nil]
  simp only [List.foldl_cons, List.foldl_nil]
  rw [Nat.div_self hp.pos, Nat.one_mul]

theorem eulerPhi_prime_pow_eq {p k : ℕ} (hp : p.Prime) (hk : 1 ≤ k) :
    EulerPhi.compute (p ^ k) = p ^ k - p ^ (k - 1) := by
  have hne : p ^ k ≠ 1 := by
    have : 2 ^ k ≤ p ^ k := Nat.pow_le_pow_left hp.two_le k
    have : 2 ^ 1 ≤ 2 ^ k := Nat.pow_le_pow_right (by omega) hk
    omega
  rw [EulerPhi.compute, if_neg hne, primeFactors_of_prime_pow hp,
    dedup_replicate_of_pos hk]
  simp only [List.foldl_cons, List.foldl_nil]
  have hsplit : p ^ k = p ^ (k - 1) * p := by
    rw [← Nat.pow_succ]
    congr 1
    omega
  rw [hsplit, Nat.mul_div_cancel _ hp.pos]
  have hexp : p ^ (k - 1) * (p - 1) + p ^ (k - 1) = p ^ (k - 1) * p := by
    have h1 : p - 1 + 1 = p := Nat.succ_pred_eq_of_pos hp.pos
    calc p ^ (k - 1) * (p - 1) + p ^ (k - 1) = p ^ (k - 1) * (p - 1 + 1) := by ring
    _ = p ^ (k - 1) * p := by rw [h1]
  omega

/-- Modelled from the spec and the repository's tests (missing `mega.op.function`
source): Jordan's totient: `k = 0` returns 0 by convention; otherwise the product of
`p^k - 1` over the prime factors of `n` taken with multiplicity, in exact integer
form; this is the value the tests pin, e.g.
`JordanTotient(100, 2) == 5184 == (2^2-1)^2 * (5^2-1)^2`. -/
def JordanTotient.compute (n k : ℕ) : ℕ :=
  if k = 0 then 0
  else ((primeFactors n).map (fun p => p ^ k - 1)).prod

/-- Modelled from the spec: the Gamma evaluator, with the Lanczos-style rational
approximation left as an explicit parameter (the spec fixes no coefficient set); a
positive integer argument takes the exact factorial path `(z-1)!`, `z < 0.5` the
reflection formula, and everything else the approximation. -/
noncomputable def Gamma.compute (approx : ℝ → ℝ) (z : ℝ) : ℝ :=
  if 0 < z ∧ (⌊z⌋₊ : ℝ) = z then ((⌊z⌋₊ - 1).factorial : ℝ)
  else if z < 0.5 then Real.pi / (Real.sin (Real.pi * z) * approx (1 - z))
  else approx z

/-- Modelled from the spec: the approximation branch idealized as the true Gamma
function (the spec's contract only bounds its error). -/
noncomputable def lanczosApprox : ℝ → ℝ := Real.Gamma

/-- Modelled from the spec (missing `mega.op.arithmethic` source): the Chebyshev
summation function state: the construction argument and the user-controlled memo
cache (insertion at the front of an association list models dict assignment). -/
structure Chebyshev where
  x : ℝ
  cache : List (ℤ × ℝ)

/-- Modelled from the spec: sum of `ln p` over the primes `p ≤ floor x`. -/
noncomputable def chebyshevValue (x : ℝ) : ℝ :=
  ∑ p ∈ (Finset.range (⌊x⌋₊ + 1)).filter (fun p => Nat.Prime p), Real.log p

/-- Modelled from the spec: `compute` returns the prime-log sum and neither reads nor
writes the cache (the returned state is the unchanged instance). -/
noncomputable def Chebyshev.compute (c : Chebyshev) : ℝ × Chebyshev :=
  (chebyshevValue c.x, c)

/-- Modelled from the spec: `c[k] = v`. -/
def Chebyshev.cache_set (c : Chebyshev) (k : ℤ) (v : ℝ) : Chebyshev :=
  ⟨c.x, (k, v) :: c.cache⟩

/-- Modelled from the spec: `c[k]`. -/
def Chebyshev.cache_get (c : Chebyshev) (k : ℤ) : Option ℝ :=
  (c.cache.find? (fun e => e.1 == k)).map (fun e => e.2)

theorem chebyshev_monotone_value {x1 x2 : ℝ} (h0 : 0 ≤ x1) (h12 : x1 ≤ x2) :
    chebyshevValue x1 ≤ chebyshevValue x2 := by
  rw [chebyshevValue, chebyshevValue]
  refine Finset.sum_le_sum_of_subset_of_nonneg ?_ ?_
  · refine Finset.filter_subset_filter _ ?_
    exact Finset.range_subset.mpr (by
      have := Nat.floor_mono h12
      omega)
  · intro p hp _
    rw [Finset.mem_filter] at hp
    have hp2 : 2 ≤ p := hp.2.two_le
    refine Real.log_nonneg (by exact_mod_cast by omega : (1:ℝ) ≤ (p:ℝ))

/-- Modelled from the spec: a nested-list literal. -/
inductive Nested (α : Type) where
  | leaf (v : α)
  | node (xs : List (Nested α))

mutual

/-- Modelled from the spec (missing `mega.op.tensor` source): shape inference by
recursively measuring the nested sequence's lengths at each depth, failing on
irregular depths (or an empty level, whose dimension would not be strictly
positive). -/
def shapeOf {α : Type} : Nested α → Option (List ℕ)
  | .leaf _ => some []
  | .node [] => none
  | .node (x :: xs) =>
      match shapeOf x with
      | none => none
      | some s => if sameShape s xs then some ((xs.length + 1) :: s) else none

/-- All members of a level must infer the same shape. -/
def sameShape {α : Type} (s : List ℕ) : List (Nested α) → Bool
  | [] => true
  | c :: cs => (shapeOf c == some s) && sameShape s cs

end

mutual

/-- Modelled from the spec: row-major (outermost-first) flattening of a nested-list
literal. -/
def flattenN {α : Type} : Nested α → List α
  | .leaf v => [v]
  | .node xs => flattenMany xs

def flattenMany {α : Type} : List (Nested α) → List α
  | [] => []
  | c :: cs => flattenN c ++ flattenMany cs

end

mutual

/-- Modelled from the spec: reconstruct one nested value of the given shape from the
front of a flat row-major buffer, returning the unconsumed remainder. -/
def parseOne {α : Type} [Inhabited α] : List ℕ → List α → Nested α × List α
  | [], [] => (.leaf default, [])
  | [], v :: rest => (.leaf v, rest)
  | d :: rest, flat =>
      let r := parseMany d rest flat
      (.node r.1, r.2)
termination_by s _ => (s.length, 1, 0)

def parseMany {α : Type} [Inhabited α] : ℕ → List ℕ → List α → List (Nested α) × List α
  | 0, _, flat => ([], flat)
  | d + 1, rest, flat =>
      let r1 := parseOne rest flat
      let r2 := parseMany d rest r1.2
      (r1.1 :: r2.1, r2.2)
termination_by d rest _ => (rest.length + 1, 0, d)

end

theorem sameShape_iff {α : Type} (s : List ℕ) (l : List (Nested α)) :
    sameShape s l = true ↔ ∀ c ∈ l, shapeOf c = some s := by
  induction l with
  | nil => simp [sameShape]
  | cons c cs ih =>
      rw [sameShape]
      simp only [Bool.and_eq_true, beq_iff_eq, List.mem_cons, ih]
      constructor
      · rintro ⟨h1, h2⟩ x (rfl | hx)
        · exact h1
        · exact h2 x hx
      · intro h
        exact ⟨h c (Or.inl rfl), fun x hx => h x (Or.inr hx)⟩

theorem shapeOf_node_cons {α : Type} (x : Nested α) (xs : List (Nested α)) (s : List ℕ) :
    shapeOf (.node (x :: xs)) = some s ↔
      ∃ s0, shapeOf x = some s0 ∧ (∀ c ∈ xs, shapeOf c = some s0) ∧
        s = (xs.length + 1) :: s0 := by
  rw [shapeOf]
  cases hx : shapeOf x with
  | none => simp
  | some s0 =>
      simp only [Option.some.injEq, exists_eq_left']
      by_cases hss : sameShape s0 xs = true
      · rw [if_pos hss]
        simp only [Option.some.injEq]
        exact ⟨fun h => ⟨(sameShape_iff s0 xs).mp hss, h.symm⟩, fun ⟨_, h⟩ => h.symm⟩
      · rw [if_neg hss]
        constructor
        · intro h
          exact Option.noConfusion h
        · rintro ⟨hall, rfl⟩
          exact (hss ((sameShape_iff s0 xs).mpr hall)).elim

theorem parse_round_aux {α : Type} [Inhabited α] (N : ℕ) :
    ∀ (t : Nested α), sizeOf t ≤ N → ∀ (s : List ℕ) (extra : List α),
      shapeOf t = some s → parseOne s (flattenN t ++ extra) = (t, extra) := by
  induction N with
  | zero =>
      intro t ht
      cases t with
      | leaf v => simp at ht
      | node xs => simp at ht
  | succ N ih =>
      intro t ht s extra hs
      cases t with
      | leaf v =>
          rw [shapeOf] at hs
          obtain rfl : ([] : List ℕ) = s := Option.some.inj hs
          rw [flattenN, List.singleton_append, parseOne]
      | node xs =>
          cases xs with
          | nil => rw [shapeOf] at hs; exact Option.noConfusion hs
          | cons x xs' =>
              rw [shapeOf_node_cons] at hs
              obtain ⟨s0, hx, hall, rfl⟩ := hs
              rw [flattenN, parseOne]
              have hsize : ∀ c ∈ x :: xs', sizeOf c ≤ N := by
                intro c hc
                have h1 : sizeOf c < sizeOf (x :: xs') := List.sizeOf_lt_of_mem hc
                have h2 : sizeOf (Nested.node (x :: xs')) = 1 + sizeOf (x :: xs') := by
                  simp
                omega
              have hshape : ∀ c ∈ x :: xs', shapeOf c = some s0 := by
                intro c hc
                rcases List.mem_cons.mp hc with rfl | hc'
                · exact hx
                · exact hall c hc'
              have aux : ∀ (cs : List (Nested α)),
                  (∀ c ∈ cs, sizeOf c ≤ N ∧ shapeOf c = some s0) →
                  ∀ (e : List α), parseMany cs.length s0 (flattenMany cs ++ e) = (cs, e) := by
                intro cs
                induction cs with
                | nil =>
                    intro _ e
                    rw [flattenMany, List.length_nil, parseMany]
                    simp
                | cons c cs' ihc =>
                    intro hcs e
                    have hc := hcs c (List.mem_cons_self c cs')
                    have h1 : parseOne s0 (flattenN c ++ (flattenMany cs' ++ e)) =
                        (c, flattenMany cs' ++ e) :=
                      ih c hc.1 s0 (flattenMany cs' ++ e) hc.2
                    have h2 : parseMany cs'.length s0 (flattenMany cs' ++ e) = (cs', e) :=
                      ihc (fun d hd => hcs d (List.mem_cons_of_mem c hd)) e
                    rw [flattenMany, List.length_cons, parseMany, List.append_assoc, h1]
                    simp only [h2]
              have happ := aux (x :: xs') (fun c hc => ⟨hsize c hc, hshape c hc⟩) extra
              simp only [List.length_cons] at happ
              simp only [happ]

/-- Row-major flattening then parsing at the inferred shape is the identity (with any
unconsumed suffix preserved). -/
theorem parseOne_flattenN {α : Type} [Inhabited α] (t : Nested α) (s : List ℕ)
    (extra : List α) (h : shapeOf t = some s) :
    parseOne s (flattenN t ++ extra) = (t, extra) :=
  parse_round_aux (sizeOf t) t le_rfl s extra h

/-- Modelled from the spec: a Tensor owns a shape and a flat row-major buffer tagged
with its element type. -/
structure Tensor (α : Type) where
  shape : List ℕ
  dtypeTag : String
  data : List α
  deriving DecidableEq

/-- Modelled from the spec: `dtype()` returns the element type tag. -/
def Tensor.dtype {α : Type} (t : Tensor α) : String := t.dtypeTag

/-- Modelled from the spec: construction validates the shape (strictly positive
dimensions, rank at least 1), the dtype tag, and the length of the optional initial
data; storage is zero-initialized when data is omitted. -/
def Tensor.construct {α : Type} [Zero α] (shape : List ℤ) (dt : String)
    (data : Option (List α)) : Except PyError (Tensor α) :=
  if shape = [] ∨ ∃ d ∈ shape, d ≤ 0 then .error .valueError
  else if dt ∈ validDtypes then
    match data with
    | none =>
        .ok ⟨shape.map Int.toNat, dt, List.replicate (shape.map Int.toNat).prod 0⟩
    | some l =>
        if l.length = (shape.map Int.toNat).prod then .ok ⟨shape.map Int.toNat, dt, l⟩
        else .error .valueError
  else .error .valueError

/-- Modelled from the spec: `fromlist` infers the shape from the nested literal
(failing on irregular depth) and flattens row-major. -/
def Tensor.fromlist {α : Type} (nested : Nested α) (dt : String) :
    Except PyError (Tensor α) :=
  if dt ∈ validDtypes then
    match shapeOf nested with
    | none => .error .valueError
    | some s => .ok ⟨s, dt, flattenN nested⟩
  else .error .valueError

/-- Modelled from the spec: `tolist` reconstructs the nested sequence matching `shape`
from the flat buffer in row-major order. -/
def Tensor.tolist {α : Type} [Inhabited α] (t : Tensor α) : Nested α :=
  (parseOne t.shape t.data).1

/-- Row-major strides: `stride[i] = product(shape[i+1:])`. -/
def strides : List ℕ → List ℕ
  | [] => []
  | _ :: rest => rest.prod :: strides rest

/-- Offset of a multi-index: `sum(idx[i] * stride[i])`. -/
def offsetOf (shape idx : List ℕ) : ℕ :=
  ((idx.zip (strides shape)).map (fun p => p.1 * p.2)).sum

/-- Modelled from the spec: index validation against the dimension bounds. -/
def indexOK (shape idx : List ℕ) : Prop :=
  idx.length = shape.length ∧ ∀ p ∈ idx.zip shape, p.1 < p.2

instance (shape idx : List ℕ) : Decidable (indexOK shape idx) := by
  unfold indexOK; infer_instance

/-- Modelled from the spec: element access validates each coordinate, failing with
`IndexOutOfRange` (Python `IndexError`), and reads at the row-major offset. -/
def Tensor.get {α : Type} [Inhabited α] (t : Tensor α) (idx : List ℕ) :
    Except PyError α :=
  if indexOK t.shape idx then .ok (t.data.getD (offsetOf t.shape idx) default)
  else .error .indexError

/-- Modelled from the spec: `catalan_number(n)` fails with `InvalidArgument`
(Python `ValueError`) for `n < 0`, otherwise returns the n-th Catalan number
(missing `mega.utils.constant` source). -/
def catalan_number (n : ℤ) : Except PyError ℕ :=
  if n < 0 then .error .valueError
  else .ok (Nat.choose (2 * n.toNat) n.toNat / (n.toNat + 1))

/- Model validation against the repository's test vectors. -/

set_option maxRecDepth 40000 in
theorem modelCheck_divisor_sums :
    ((divisorList 6).map (fun d => d ^ 0)).sum = 4 ∧
    ((divisorList 12).map (fun d => d ^ 1)).sum = 28 ∧
    ((divisorList 100).map (fun d => d ^ 1)).sum = 217 ∧
    ((divisorList 1000).map (fun d => d ^ 1)).sum = 2340 := by
  refine ⟨by decide, by decide, by decide, by decide⟩

theorem modelCheck_primeFactors :
    primeFactors 6 = [2, 3] ∧ primeFactors 12 = [2, 2, 3] ∧
    primeFactors 100 = [2, 2, 5, 5] ∧ primeFactors 1 = [] := by
  refine ⟨?_, ?_, ?_, ?_⟩ <;> simp [primeFactors, trialDivide]

theorem modelCheck_eulerPhi :
    EulerPhi.compute 12 = 4 ∧ EulerPhi.compute 48 = 16 ∧ EulerPhi.compute 105 = 48 := by
  have h12 : primeFactors 12 = [2, 2, 3] := by simp [primeFactors, trialDivide]
  have h48 : primeFactors 48 = [2, 2, 2, 2, 3] := by simp [primeFactors, trialDivide]
  have h105 : primeFactors 105 = [3, 5, 7] := by simp [primeFactors, trialDivide]
  refine ⟨?_, ?_, ?_⟩
  · rw [EulerPhi.compute, if_neg (by omega), h12]; decide
  · rw [EulerPhi.compute, if_neg (by omega), h48]; decide
  · rw [EulerPhi.compute, if_neg (by omega), h105]; decide

theorem modelCheck_jordanTotient :
    JordanTotient.compute 6 1 = 2 ∧ JordanTotient.compute 6 3 = 182 ∧
    JordanTotient.compute 100 2 = 5184 ∧ JordanTotient.compute 12 2 = 72 ∧
    JordanTotient.compute 1 2 = 1 := by
  have h6 : primeFactors 6 = [2, 3] := by simp [primeFactors, trialDivide]
  have h100 : primeFactors 100 = [2, 2, 5, 5] := by simp [primeFactors, trialDivide]
  have h12 : primeFactors 12 = [2, 2, 3] := by simp [primeFactors, trialDivide]
  have h1 : primeFactors 1 = [] := by simp [primeFactors, trialDivide]
  refine ⟨?_, ?_, ?_, ?_, ?_⟩ <;>
    [rw [JordanTotient.compute, if_neg (by omega), h6];
     rw [JordanTotient.compute, if_neg (by omega), h6];
     rw [JordanTotient.compute, if_neg (by omega), h100];
     rw [JordanTotient.compute, if_neg (by omega), h12];
     rw [JordanTotient.compute, if_neg (by omega), h1]] <;> decide

theorem modelCheck_tensor :
    Tensor.construct (α := ℤ) [3] "long" none = .ok ⟨[3], "long", [0, 0, 0]⟩ ∧
    (Tensor.mk [3] "long" ([10, 20, 30] : List ℤ)).get [1] = .ok 20 ∧
    (Tensor.mk [2, 3] "long" ([1, 2, 3, 4, 5, 6] : List ℤ)).get [1, 2] = .ok 6 := by
  refine ⟨by decide, by decide, by decide⟩

/- The claims. -/

/-- C1: for every positive integer `n`, `JordanTotient(n, 0).compute()` returns 0
(including `n = 1`): the `k = 0` case is defined as identically zero rather than
following the convention `J_0(1) = 1`. -/
theorem jordanTotient_k_zero (n : ℕ) (hn : 0 < n) : JordanTotient.compute n 0 = 0 := by
  rw [JordanTotient.compute, if_pos rfl]

/-- Witness for C1 at `n = 1`. -/
theorem jordanTotient_k_zero_witness : 0 < 1 ∧ JordanTotient.compute 1 0 = 0 :=
  ⟨Nat.one_pos, jordanTotient_k_zero 1 Nat.one_pos⟩

/-- C2 counterexample: the tag `"int"`, which is none of `int32/int64/float32/float64`,
is accepted by Tensor construction (and `dtype()` returns it), while `"int32"` is
rejected — refuting the claimed tag set at a concrete input. -/
theorem tensor_dtype_tags_counterexample :
    Tensor.construct [2, 2] "int" (none : Option (List ℤ)) =
      .ok ⟨[2, 2], "int", List.replicate 4 0⟩ ∧
    (Tensor.mk [2, 2] "int" (List.replicate 4 (0 : ℤ))).dtype = "int" ∧
    Tensor.construct (α := ℤ) [2, 2] "int32" none = .error .valueError ∧
    ("int" ≠ "int32" ∧ "int" ≠ "int64" ∧ "int" ≠ "float32" ∧ "int" ≠ "float64") := by
  refine ⟨by decide, rfl, by decide, by decide⟩

/-- C2 (amended): Tensor construction accepts exactly the four element type tags
`"int"`, `"long"`, `"float"`, `"double"` and fails with `ValueError` for any other
dtype string; for a successfully constructed Tensor, `dtype()` returns the tag it was
constructed with. -/
theorem tensor_dtype_tags_amended :
    (∀ (shape : List ℤ) (dt : String), ¬(shape = [] ∨ ∃ d ∈ shape, d ≤ 0) →
      ((∃ t : Tensor ℤ, Tensor.construct shape dt none = .ok t) ↔ dt ∈ validDtypes)) ∧
    (∀ (shape : List ℤ) (dt : String) (data : Option (List ℤ)) (t : Tensor ℤ),
      Tensor.construct shape dt data = .ok t → t.dtype = dt) ∧
    (∀ (shape : List ℤ) (dt : String) (data : Option (List ℤ)),
      dt ∉ validDtypes → Tensor.construct (α := ℤ) shape dt data = .error .valueError) := by
  refine ⟨?_, ?_, ?_⟩
  · intro shape dt hs
    rw [Tensor.construct, if_neg hs]
    by_cases hdt : dt ∈ validDtypes
    · rw [if_pos hdt]
      exact ⟨fun _ => hdt, fun _ => ⟨_, rfl⟩⟩
    · rw [if_neg hdt]
      constructor
      · rintro ⟨t, ht⟩
        exact Except.noConfusion ht
      · intro h
        exact absurd h hdt
  · intro shape dt data t h
    rw [Tensor.construct.eq_def] at h
    split at h
    · exact Except.noConfusion h
    · split at h
      · split at h
        · cases h
          rfl
        · split at h
          · cases h
            rfl
          · exact Except.noConfusion h
      · exact Except.noConfusion h
  · intro shape dt data hdt
    rw [Tensor.construct.eq_def]
    split <;> rfl

/-- Witness for the amended C2 at concrete inputs. -/
theorem tensor_dtype_tags_amended_witness :
    ¬(([2, 2] : List ℤ) = [] ∨ ∃ d ∈ ([2, 2] : List ℤ), d ≤ 0) ∧
    ((∃ t : Tensor ℤ, Tensor.construct [2, 2] "long" none = .ok t) ↔
      "long" ∈ validDtypes) ∧
    "str" ∉ validDtypes ∧
    Tensor.construct (α := ℤ) [2, 2] "str" none = .error .valueError :=
  ⟨by decide, tensor_dtype_tags_amended.1 [2, 2] "long" (by decide), by decide,
    tensor_dtype_tags_amended.2.2 [2, 2] "str" none (by decide)⟩

set_option maxRecDepth 40000 in
/-- C3: for every positive integer `n` and non-negative integer `z`,
`SigmaZ(n, z).compute()` is a non-negative exact integer equal to the sum of `d^z`
over the positive divisors `d` of `n`; in particular `SigmaZ(28, 1) = 56` and
`SigmaZ(1000, 0) = 16`. -/
theorem sigmaZ_integer_exponent_divisor_sum :
    (∀ (n m : ℕ), 0 < n →
      SigmaZ.compute n ((m : ℕ) : ℂ) = .intVal (∑ d ∈ n.divisors, (d : ℤ) ^ m) ∧
      0 ≤ ∑ d ∈ n.divisors, (d : ℤ) ^ m) ∧
    SigmaZ.compute 28 (1 : ℂ) = .intVal 56 ∧
    SigmaZ.compute 1000 (0 : ℂ) = .intVal 16 := by
  have main : ∀ (n m : ℕ), 0 < n →
      SigmaZ.compute n ((m : ℕ) : ℂ) = .intVal (∑ d ∈ n.divisors, (d : ℤ) ^ m) ∧
      0 ≤ ∑ d ∈ n.divisors, (d : ℤ) ^ m := by
    intro n m hn
    constructor
    · rw [sigmaZ_int_eval n m, sum_divisorList n hn (fun (d : ℕ) => (d : ℤ) ^ m)]
    · exact Finset.sum_nonneg fun d _ => pow_nonneg (by positivity) m
  refine ⟨main, ?_, ?_⟩
  · have h := (main 28 1 (by norm_num)).1
    rw [show ((1 : ℕ) : ℂ) = (1 : ℂ) by norm_num] at h
    rw [h]
    congr 1
  · have h := (main 1000 0 (by norm_num)).1
    rw [show ((0 : ℕ) : ℂ) = (0 : ℂ) by norm_num] at h
    rw [h]
    congr 1

/-- Witness for C3 at `n = 6`, `z = 2`. -/
theorem sigmaZ_integer_exponent_divisor_sum_witness :
    0 < 6 ∧ SigmaZ.compute 6 ((2 : ℕ) : ℂ) = .intVal (∑ d ∈ Nat.divisors 6, (d : ℤ) ^ 2) :=
  ⟨by norm_num, (sigmaZ_integer_exponent_divisor_sum.1 6 2 (by norm_num)).1⟩

/-- C4: for every positive integer `n` and exponent `z` with non-zero imaginary part,
`SigmaZ(n, z).compute()` is a complex result equal to the sum over divisors `d` of
`exp (z * ln d)`, which is the complex power `d ^ z`; the complex branch is taken
exactly when the imaginary part of the exponent is non-zero. -/
theorem sigmaZ_complex_exponent (n : ℕ) (z : ℂ) (hn : 0 < n) (hz : z.im ≠ 0) :
    SigmaZ.compute n z = .complexVal (∑ d ∈ n.divisors, Complex.exp (z * Real.log d)) ∧
    (∑ d ∈ n.divisors, Complex.exp (z * Real.log d)) = ∑ d ∈ n.divisors, (d : ℂ) ^ z ∧
    (∀ w : ℂ, ((SigmaZ.compute n w).isComplexVal = true ↔ w.im ≠ 0)) := by
  refine ⟨?_, ?_, fun w => sigmaZ_isComplex_iff n w⟩
  · rw [sigmaZ_complex_eval n z hz,
      sum_divisorList n hn (fun (d : ℕ) => Complex.exp (z * Real.log d))]
  · refine Finset.sum_congr rfl fun d hd => ?_
    exact exp_log_eq_cpow (Nat.pos_of_mem_divisors hd) z

/-- Witness for C4 at `n = 6`, `z = i`. -/
theorem sigmaZ_complex_exponent_witness :
    0 < 6 ∧ Complex.I.im ≠ 0 ∧
    SigmaZ.compute 6 Complex.I =
      .complexVal (∑ d ∈ Nat.divisors 6, Complex.exp (Complex.I * Real.log d)) :=
  ⟨by norm_num, by simp, (sigmaZ_complex_exponent 6 Complex.I (by norm_num) (by simp)).1⟩

/-- C5: for every prime `p`, `EulerPhi(p).compute() = p - 1`, and for every prime
power `p^k` with `k ≥ 1`, `EulerPhi(p^k).compute() = p^k - p^(k-1)`. -/
theorem eulerPhi_prime_and_prime_pow :
    (∀ p : ℕ, p.Prime → EulerPhi.compute p = p - 1) ∧
    (∀ p k : ℕ, p.Prime → 1 ≤ k → EulerPhi.compute (p ^ k) = p ^ k - p ^ (k - 1)) :=
  ⟨fun _ hp => eulerPhi_prime_eq hp, fun _ _ hp hk => eulerPhi_prime_pow_eq hp hk⟩

/-- Witness for C5 at `p = 5` and `p^k = 2^3`. -/
theorem eulerPhi_prime_and_prime_pow_witness :
    Nat.Prime 5 ∧ EulerPhi.compute 5 = 5 - 1 ∧
    Nat.Prime 2 ∧ 1 ≤ 3 ∧ EulerPhi.compute (2 ^ 3) = 2 ^ 3 - 2 ^ (3 - 1) :=
  ⟨by norm_num, eulerPhi_prime_and_prime_pow.1 5 (by norm_num), by norm_num, by norm_num,
    eulerPhi_prime_and_prime_pow.2 2 3 (by norm_num) (by norm_num)⟩

/-- C6: manually cached values survive any interleaving with `compute`: after
`cache_set k v`, `cache_get k` returns exactly `v`; `compute` leaves the instance (in
particular its cache) unchanged and its value reads only the construction argument,
never the cache. -/
theorem chebyshev_cache_independence :
    (∀ (c : Chebyshev) (k : ℤ) (v : ℝ), (c.cache_set k v).cache_get k = some v) ∧
    (∀ c : Chebyshev, c.compute.2 = c) ∧
    (∀ (c : Chebyshev) (k : ℤ) (v : ℝ),
      (((c.cache_set k v).compute).2).cache_get k = some v) ∧
    (∀ (x : ℝ) (cache1 cache2 : List (ℤ × ℝ)),
      (Chebyshev.mk x cache1).compute.1 = (Chebyshev.mk x cache2).compute.1) := by
  refine ⟨?_, fun c => rfl, ?_, fun x c1 c2 => rfl⟩
  · intro c k v
    simp [Chebyshev.cache_get, Chebyshev.cache_set, List.find?]
  · intro c k v
    simp [Chebyshev.compute, Chebyshev.cache_get, Chebyshev.cache_set, List.find?]

/-- C7: `compute` is monotone non-decreasing in the construction argument: for
`0 ≤ x1 ≤ x2`, the Chebyshev value at `x1` is at most the value at `x2`, whatever the
caches hold. -/
theorem chebyshev_compute_monotone (x1 x2 : ℝ) (c1 c2 : List (ℤ × ℝ))
    (h0 : 0 ≤ x1) (h12 : x1 ≤ x2) :
    (Chebyshev.mk x1 c1).compute.1 ≤ (Chebyshev.mk x2 c2).compute.1 :=
  chebyshev_monotone_value h0 h12

/-- Witness for C7 at `x1 = 1`, `x2 = 2`. -/
theorem chebyshev_compute_monotone_witness :
    (0 : ℝ) ≤ 1 ∧ (1 : ℝ) ≤ 2 ∧
    (Chebyshev.mk 1 []).compute.1 ≤ (Chebyshev.mk 2 []).compute.1 :=
  ⟨by norm_num, by norm_num,
    chebyshev_compute_monotone 1 2 [] [] (by norm_num) (by norm_num)⟩

/-- C8: for every positive integer `n`, `Gamma(n).compute()` equals `(n-1)!` — exactly,
hence with relative error strictly below `1e-9` — via the exact factorial recurrence,
independently of whatever approximation the general branch would use. -/
theorem gamma_positive_integer_factorial (approx : ℝ → ℝ) (n : ℕ) (hn : 0 < n) :
    Gamma.compute approx (n : ℝ) = ((n - 1).factorial : ℝ) ∧
    |Gamma.compute approx (n : ℝ) - ((n - 1).factorial : ℝ)| <
      1e-9 * ((n - 1).factorial : ℝ) := by
  have hcond : (0 : ℝ) < (n : ℝ) ∧ ((⌊(n : ℝ)⌋₊ : ℝ)) = (n : ℝ) := by
    constructor
    · exact_mod_cast hn
    · rw [Nat.floor_natCast]
  have heq : Gamma.compute approx (n : ℝ) = ((n - 1).factorial : ℝ) := by
    rw [Gamma.compute, if_pos hcond, Nat.floor_natCast]
  refine ⟨heq, ?_⟩
  rw [heq, sub_self, abs_zero]
  have : (0 : ℝ) < ((n - 1).factorial : ℝ) := by
    exact_mod_cast (n - 1).factorial_pos
  nlinarith

/-- Witness for C8 at `n = 7` with the library's approximation: the value is
`6! = 720`. -/
theorem gamma_positive_integer_factorial_witness :
    0 < 7 ∧ Gamma.compute lanczosApprox ((7 : ℕ) : ℝ) = ((7 - 1 : ℕ).factorial : ℝ) ∧
    ((7 - 1 : ℕ).factorial : ℝ) = 720 :=
  ⟨by norm_num, (gamma_positive_integer_factorial lanczosApprox 7 (by norm_num)).1,
    by norm_num [Nat.factorial]⟩

/-- C9: for every regular (uniform-depth) nested list and recognized dtype,
`Tensor.fromlist(nested, dtype).tolist() == nested`: `tolist` inverts `fromlist`,
reconstructing the nested sequence from the flat buffer in row-major order. -/
theorem tensor_fromlist_tolist {α : Type} [Inhabited α] (nested : Nested α)
    (s : List ℕ) (dt : String) (hs : shapeOf nested = some s)
    (hdt : dt ∈ validDtypes) :
    (Tensor.fromlist nested dt).map Tensor.tolist = .ok nested := by
  rw [Tensor.fromlist, if_pos hdt, hs]
  simp only [Except.map]
  rw [Tensor.tolist]
  have := parseOne_flattenN nested s [] hs
  rw [List.append_nil] at this
  simp [this]

/-- Witness for C9 at the test literal `[[1, 2], [3, 4]]` with dtype `"int"`. -/
theorem tensor_fromlist_tolist_witness :
    shapeOf (Nested.node [Nested.node [Nested.leaf (1 : ℤ), Nested.leaf 2],
        Nested.node [Nested.leaf 3, Nested.leaf 4]]) = some [2, 2] ∧
    "int" ∈ validDtypes ∧
    (Tensor.fromlist (Nested.node [Nested.node [Nested.leaf (1 : ℤ), Nested.leaf 2],
        Nested.node [Nested.leaf 3, Nested.leaf 4]]) "int").map Tensor.tolist =
      .ok (Nested.node [Nested.node [Nested.leaf (1 : ℤ), Nested.leaf 2],
        Nested.node [Nested.leaf 3, Nested.leaf 4]]) :=
  ⟨by simp [shapeOf, sameShape], by decide,
    tensor_fromlist_tolist _ [2, 2] "int" (by simp [shapeOf, sameShape]) (by decide)⟩

/-- C10: every `InvalidArgument` condition at the public interface (non-positive `n`
for EulerPhi, negative argument for `catalan_number`, unrecognized dtype tag,
non-positive shape dimension) raises Python's built-in `ValueError`, and every
`IndexOutOfRange` condition (out-of-bounds Tensor index) raises Python's built-in
`IndexError`; the error type exposes nothing beyond these two built-ins. -/
theorem error_model_builtin_exceptions :
    (∀ n : ℤ, n ≤ 0 → EulerPhi.construct n = .error .valueError) ∧
    (∀ n : ℤ, n < 0 → catalan_number n = .error .valueError) ∧
    (∀ (shape : List ℤ) (dt : String) (data : Option (List ℤ)),
      (∃ d ∈ shape, d ≤ 0) → Tensor.construct shape dt data = .error .valueError) ∧
    (∀ (shape : List ℤ) (dt : String) (data : Option (List ℤ)),
      dt ∉ validDtypes → Tensor.construct (α := ℤ) shape dt data = .error .valueError) ∧
    (∀ (t : Tensor ℤ) (idx : List ℕ),
      ¬ indexOK t.shape idx → t.get idx = .error .indexError) ∧
    (∀ e : PyError, e = .valueError ∨ e = .indexError) := by
  refine ⟨?_, ?_, ?_, ?_, ?_, ?_⟩
  · intro n hn
    rw [EulerPhi.construct, if_pos hn]
  · intro n hn
    rw [catalan_number, if_pos hn]
  · intro shape dt data h
    rw [Tensor.construct.eq_def, if_pos (Or.inr h)]
  · intro shape dt data hdt
    rw [Tensor.construct.eq_def]
    split <;> rfl
  · intro t idx h
    rw [Tensor.get, if_neg h]
  · intro e
    cases e
    · exact Or.inl rfl
    · exact Or.inr rfl

/-- Witness for C10 at the tests' concrete error inputs. -/
theorem error_model_builtin_exceptions_witness :
    EulerPhi.construct 0 = .error .valueError ∧
    catalan_number (-1) = .error .valueError ∧
    Tensor.construct (α := ℤ) [0, 2] "long" none = .error .valueError ∧
    Tensor.construct (α := ℤ) [-1, 3] "long" none = .error .valueError ∧
    Tensor.construct (α := ℤ) [2, 2] "str" none = .error .valueError ∧
    (Tensor.mk [3] "long" ([0, 0, 0] : List ℤ)).get [3] = .error .indexError :=
  ⟨error_model_builtin_exceptions.1 0 (by norm_num),
    error_model_builtin_exceptions.2.1 (-1) (by norm_num),
    error_model_builtin_exceptions.2.2.1 [0, 2] "long" none (by decide),
    error_model_builtin_exceptions.2.2.1 [-1, 3] "long" none (by decide),
    error_model_builtin_exceptions.2.2.2.1 [2, 2] "str" none (by decide),
    error_model_builtin_exceptions.2.2.2.2.1 (Tensor.mk [3] "long" [0, 0, 0]) [3]
      (by decide)⟩
